import Mathlib

/-!
Verification of the dogstatsd replay message decoder
(`src/dogstatsdreplayreader.rs`) and the CLI entry point
(`src/bin/replaydump.rs`).

Bytes are modelled as `Nat` (real inputs are `< 256`; the UTF-8 validator
rejects anything `≥ 0xF5` in a leading position and anything outside
`0x80..0xBF` in a continuation position, so larger values behave as invalid
bytes). Decoded text is modelled as `List Char`, with the head of the list
being the first character.
-/

namespace DogStatsD

abbrev Byte := Nat

/-- The error enum `DogStatsDReplayReaderError` of
`src/dogstatsdreplayreader.rs`. -/
inductive DogStatsDReplayReaderError where
  | NotAReplayFile
  | UnsupportedReplayVersion
  | InvalidUtf8Sequence
deriving DecidableEq

/-- The error enum `ReplayReaderError` of the frame reader. Its two variants
are the ones matched exhaustively in `DogStatsDReplayReader::new`. -/
inductive ReplayReaderError where
  | NotAReplayFile
  | UnsupportedReplayVersion
deriving DecidableEq

/-- Is `b` a UTF-8 continuation byte (`0x80..=0xBF`)? -/
def isCont (b : Byte) : Bool := 0x80 ≤ b && b ≤ 0xBF

/-- Valid second byte of a three-byte UTF-8 sequence led by `b1`, following
the table used by `std::str::from_utf8`: `0xE0` requires `0xA0..=0xBF`,
`0xED` requires `0x80..=0x9F`, the rest require `0x80..=0xBF`. -/
def utf8Second3 (b1 b2 : Byte) : Bool :=
  if b1 = 0xE0 then 0xA0 ≤ b2 && b2 ≤ 0xBF
  else if b1 = 0xED then 0x80 ≤ b2 && b2 ≤ 0x9F
  else isCont b2

/-- Valid second byte of a four-byte UTF-8 sequence led by `b1`: `0xF0`
requires `0x90..=0xBF`, `0xF4` requires `0x80..=0x8F`, the rest require
`0x80..=0xBF`. -/
def utf8Second4 (b1 b2 : Byte) : Bool :=
  if b1 = 0xF0 then 0x90 ≤ b2 && b2 ≤ 0xBF
  else if b1 = 0xF4 then 0x80 ≤ b2 && b2 ≤ 0x8F
  else isCont b2

/-- Shallow embedding of `std::str::from_utf8(&msg.payload)` as used at
`src/dogstatsdreplayreader.rs:38`: decodes a byte list to a character list,
returning `none` exactly when the bytes are not well-formed UTF-8. -/
def utf8Decode : List Byte → Option (List Char)
  | [] => some []
  | b1 :: rest =>
    if b1 < 0x80 then
      (utf8Decode rest).map (fun cs => Char.ofNat b1 :: cs)
    else if 0xC2 ≤ b1 && b1 ≤ 0xDF then
      match rest with
      | b2 :: rest2 =>
        if isCont b2 then
          (utf8Decode rest2).map (fun cs =>
            Char.ofNat ((b1 - 0xC0) * 0x40 + (b2 - 0x80)) :: cs)
        else none
      | [] => none
    else if 0xE0 ≤ b1 && b1 ≤ 0xEF then
      match rest with
      | b2 :: b3 :: rest3 =>
        if utf8Second3 b1 b2 && isCont b3 then
          (utf8Decode rest3).map (fun cs =>
            Char.ofNat ((b1 - 0xE0) * 0x1000 + (b2 - 0x80) * 0x40 + (b3 - 0x80)) :: cs)
        else none
      | _ => none
    else if 0xF0 ≤ b1 && b1 ≤ 0xF4 then
      match rest with
      | b2 :: b3 :: b4 :: rest4 =>
        if utf8Second4 b1 b2 && isCont b3 && isCont b4 then
          (utf8Decode rest4).map (fun cs =>
            Char.ofNat
              ((b1 - 0xF0) * 0x40000 + (b2 - 0x80) * 0x1000 +
                (b3 - 0x80) * 0x40 + (b4 - 0x80)) :: cs)
        else none
      | _ => none
    else none

/-- `str::split_inclusive('\n')`: splits into segments each ending with a
newline, the last segment possibly without one; the empty string yields no
segments. -/
def splitInclusiveNl : List Char → List (List Char)
  | [] => []
  | c :: rest =>
    if c = '\n' then ['\n'] :: splitInclusiveNl rest
    else
      match splitInclusiveNl rest with
      | [] => [[c]]
      | seg :: segs => (c :: seg) :: segs

/-- `str::strip_suffix(c)`: `some` of the list without its last element when
that element is `c`, else `none`. -/
def stripSuffixChar (l : List Char) (c : Char) : Option (List Char) :=
  if l.getLast? = some c then some l.dropLast else none

/-- The per-segment trim performed by `str::lines()`: remove one trailing
`'\n'`, and then, only if a `'\n'` was removed, one trailing `'\r'`. -/
def linesMap (l : List Char) : List Char :=
  match stripSuffixChar l '\n' with
  | none => l
  | some l1 =>
    match stripSuffixChar l1 '\r' with
    | none => l1
    | some l2 => l2

/-- `str::lines()` as iterated at `src/dogstatsdreplayreader.rs:45`:
split-inclusive on `'\n'`, then trim each segment. -/
def strLines (s : List Char) : List (List Char) :=
  (splitInclusiveNl s).map linesMap

theorem splitInclusiveNl_ne_nil {s : List Char} (h : s ≠ []) :
    splitInclusiveNl s ≠ [] := by
  match s with
  | c :: rest =>
    simp only [splitInclusiveNl]
    split
    · simp
    · split <;> simp

theorem strLines_ne_nil {s : List Char} (h : s ≠ []) : strLines s ≠ [] := by
  simp only [strLines, ne_eq, List.map_eq_nil_iff]
  exact splitInclusiveNl_ne_nil h

/-- A frame as handed to the decoder by the frame reader's `read_msg`. Only
the `payload` field is consumed by `DogStatsDReplayReader::read_msg`
(modelled from the spec: the frame also carries a capture timestamp and
auxiliary fields, which the decoder never reads, so they are omitted). -/
structure ReplayMsg where
  payload : List Byte
deriving DecidableEq

/-- The state of `DogStatsDReplayReader`: the wrapped `ReplayReader` is
modelled by the list of frames its successive `read_msg` calls will yield
(it is a strictly forward single-pass iterator), and `current_messages` is
the `VecDeque<String>` of pending lines, front at the head. -/
structure DogStatsDReplayReader where
  replay_msg_reader : List ReplayMsg
  current_messages : List (List Char)
deriving DecidableEq

/-- `DogStatsDReplayReader::read_msg` (`src/dogstatsdreplayreader.rs:30-56`)
as a state transformer: takes the decoder state and the caller's string `s`,
returns the result, the new contents of `s` (`s.insert_str(0, &line)`
prepends), and the new decoder state. -/
def read_msg (st : DogStatsDReplayReader) (s : List Char) :
    Except DogStatsDReplayReaderError Nat × List Char × DogStatsDReplayReader :=
  match hq : st.current_messages with
  | line :: restq =>
    (Except.ok 1, line ++ s, ⟨st.replay_msg_reader, restq⟩)
  | [] =>
    match st.replay_msg_reader with
    | [] => (Except.ok 0, s, st)
    | msg :: restFrames =>
      match utf8Decode msg.payload with
      | none => (Except.error .InvalidUtf8Sequence, s, ⟨restFrames, []⟩)
      | some v =>
        if hv : v = [] then (Except.ok 0, s, ⟨restFrames, []⟩)
        else
          read_msg ⟨restFrames, strLines v⟩ s
termination_by (if st.current_messages.isEmpty then 1 else 0)
decreasing_by
  obtain ⟨a, l, he⟩ := List.exists_cons_of_ne_nil (strLines_ne_nil hv)
  simp [hq, he]

theorem read_msg_pop (fr : List ReplayMsg) (l : List Char)
    (q : List (List Char)) (s : List Char) :
    read_msg ⟨fr, l :: q⟩ s = (Except.ok 1, l ++ s, ⟨fr, q⟩) := by
  rw [read_msg]

theorem read_msg_end (fr : List ReplayMsg) (s : List Char) (h : fr = []) :
    read_msg ⟨fr, []⟩ s = (Except.ok 0, s, ⟨fr, []⟩) := by
  rw [read_msg, h]

theorem read_msg_badUtf8 (msg : ReplayMsg) (rest : List ReplayMsg)
    (s : List Char) (h : utf8Decode msg.payload = none) :
    read_msg ⟨msg :: rest, []⟩ s
      = (Except.error DogStatsDReplayReaderError.InvalidUtf8Sequence, s, ⟨rest, []⟩) := by
  rw [read_msg]
  simp [h]

theorem read_msg_empty_payload (msg : ReplayMsg) (rest : List ReplayMsg)
    (s : List Char) (h : utf8Decode msg.payload = some []) :
    read_msg ⟨msg :: rest, []⟩ s = (Except.ok 0, s, ⟨rest, []⟩) := by
  rw [read_msg]
  simp [h]

theorem read_msg_fill (msg : ReplayMsg) (rest : List ReplayMsg) (v : List Char)
    (s : List Char) (hdec : utf8Decode msg.payload = some v) (hne : v ≠ []) :
    read_msg ⟨msg :: rest, []⟩ s = read_msg ⟨rest, strLines v⟩ s := by
  conv_lhs => rw [read_msg]
  simp [hdec, hne]

/-- Perform `n` successive `read_msg` calls, each with a freshly cleared
output string (as the tests do), collecting each call's result and output. -/
def runReads :
    Nat → DogStatsDReplayReader →
      List (Except DogStatsDReplayReaderError Nat × List Char) × DogStatsDReplayReader
  | 0, st => ([], st)
  | n + 1, st =>
    let step := read_msg st []
    let more := runReads n step.2.2
    ((step.1, step.2.1) :: more.1, more.2)

theorem runReads_drain (q : List (List Char)) (fr : List ReplayMsg) :
    runReads q.length ⟨fr, q⟩ = (q.map (fun l => (Except.ok 1, l)), ⟨fr, []⟩) := by
  induction q with
  | nil => simp [runReads]
  | cons l q ih => simp [runReads, read_msg_pop, ih]

/-- C1: for a frame whose payload decodes to text with `k` newline-separated
records, exactly `k` consecutive `read_msg` calls return `Ok(1)` yielding
those records in their original order, after which the pending queue is
empty and the reader stands at the next frame. -/
theorem claim_C1_frame_yields_k_lines (msg : ReplayMsg) (rest : List ReplayMsg)
    (v : List Char) (hdec : utf8Decode msg.payload = some v) (hne : v ≠ []) :
    runReads (strLines v).length ⟨msg :: rest, []⟩
      = ((strLines v).map (fun l => (Except.ok 1, l)), ⟨rest, []⟩) := by
  obtain ⟨l, q, he⟩ := List.exists_cons_of_ne_nil (strLines_ne_nil hne)
  have h1 := read_msg_fill msg rest v [] hdec hne
  rw [he] at h1
  simp [he, runReads, h1, read_msg_pop, runReads_drain]

theorem claim_C1_frame_yields_k_lines_witness :
    runReads (strLines ['a', '\n', 'b']).length ⟨[⟨[0x61, 0x0a, 0x62]⟩], []⟩
      = ((strLines ['a', '\n', 'b']).map (fun l => (Except.ok 1, l)), ⟨[], []⟩) :=
  claim_C1_frame_yields_k_lines ⟨[0x61, 0x0a, 0x62]⟩ [] ['a', '\n', 'b']
    (by decide) (by decide)

/-- C3: with an empty pending-line queue, `read_msg` returns
`InvalidUtf8Sequence` exactly when there is a next frame whose payload bytes
are not well-formed UTF-8. -/
theorem claim_C3_invalid_utf8 (st : DogStatsDReplayReader) (s : List Char)
    (hq : st.current_messages = []) :
    (read_msg st s).1 = Except.error DogStatsDReplayReaderError.InvalidUtf8Sequence ↔
      ∃ msg rest, st.replay_msg_reader = msg :: rest ∧ utf8Decode msg.payload = none := by
  obtain ⟨fr, cm⟩ := st
  simp only at hq
  subst hq
  cases fr with
  | nil => rw [read_msg_end _ _ rfl] <;> simp
  | cons msg rest =>
    cases hdec : utf8Decode msg.payload with
    | none =>
      rw [read_msg_badUtf8 msg rest s hdec]
      simp [hdec]
    | some v =>
      by_cases hv : v = []
      · subst hv
        rw [read_msg_empty_payload msg rest s hdec]
        simp [hdec]
      · rw [read_msg_fill msg rest v s hdec hv]
        obtain ⟨l, q, he⟩ := List.exists_cons_of_ne_nil (strLines_ne_nil hv)
        rw [he, read_msg_pop]
        simp [hdec]

theorem claim_C3_invalid_utf8_witness :
    (read_msg ⟨[⟨[0xff]⟩], []⟩ []).1
      = Except.error DogStatsDReplayReaderError.InvalidUtf8Sequence :=
  (claim_C3_invalid_utf8 ⟨[⟨[0xff]⟩], []⟩ [] rfl).mpr
    ⟨⟨[0xff]⟩, [], rfl, by decide⟩

/-- C4: with an empty queue, a frame whose payload decodes to the empty text
makes `read_msg` return `Ok(0)`, consuming only that frame; this is not
end-of-stream: when a further frame with a non-empty decodable payload
follows, the next call returns `Ok(1)`. -/
theorem claim_C4_empty_payload (msg : ReplayMsg) (rest : List ReplayMsg)
    (s : List Char) (hdec : utf8Decode msg.payload = some []) :
    read_msg ⟨msg :: rest, []⟩ s = (Except.ok 0, s, ⟨rest, []⟩) ∧
    (∀ msg2 rest2 v s2, rest = msg2 :: rest2 → utf8Decode msg2.payload = some v →
      v ≠ [] → (read_msg ⟨rest, []⟩ s2).1 = Except.ok 1) := by
  refine ⟨read_msg_empty_payload msg rest s hdec, ?_⟩
  intro msg2 rest2 v s2 hr hd2 hv
  subst hr
  rw [read_msg_fill msg2 rest2 v s2 hd2 hv]
  obtain ⟨l, q, he⟩ := List.exists_cons_of_ne_nil (strLines_ne_nil hv)
  rw [he, read_msg_pop]

theorem claim_C4_empty_payload_witness :
    read_msg ⟨[⟨[]⟩, ⟨[0x61]⟩], []⟩ [] = (Except.ok 0, [], ⟨[⟨[0x61]⟩], []⟩) ∧
    (read_msg ⟨[⟨[0x61]⟩], []⟩ []).1 = Except.ok 1 :=
  have h := claim_C4_empty_payload ⟨[]⟩ [⟨[0x61]⟩] [] (by decide)
  ⟨h.1, h.2 ⟨[0x61]⟩ [] ['a'] [] rfl (by decide) (by decide)⟩

/-- C5: every `read_msg` call returns `Ok(0)`, `Ok(1)`, or an error — never
`Ok(n)` with `n > 1`. -/
theorem claim_C5_at_most_one (st : DogStatsDReplayReader) (s : List Char) :
    (read_msg st s).1 = Except.ok 0 ∨ (read_msg st s).1 = Except.ok 1 ∨
      ∃ e, (read_msg st s).1 = Except.error e := by
  obtain ⟨fr, cm⟩ := st
  cases cm with
  | cons l q => rw [read_msg_pop]; simp
  | nil =>
    cases fr with
    | nil => rw [read_msg_end _ _ rfl] <;> simp
    | cons msg rest =>
      cases hdec : utf8Decode msg.payload with
      | none => rw [read_msg_badUtf8 msg rest s hdec]; simp
      | some v =>
        by_cases hv : v = []
        · subst hv; rw [read_msg_empty_payload msg rest s hdec]; simp
        · rw [read_msg_fill msg rest v s hdec hv]
          obtain ⟨l, q, he⟩ := List.exists_cons_of_ne_nil (strLines_ne_nil hv)
          rw [he, read_msg_pop]; simp

/-- C7: with a non-empty queue, `read_msg` pops the front element, prepends
it to the caller's string (existing content stays, after the inserted text),
returns `Ok(1)`, leaves the frame reader untouched and changes nothing else
in the state. -/
theorem claim_C7_pop_front (fr : List ReplayMsg) (l : List Char)
    (q : List (List Char)) (s : List Char) :
    read_msg ⟨fr, l :: q⟩ s = (Except.ok 1, l ++ s, ⟨fr, q⟩) :=
  read_msg_pop fr l q s

/-- The number of logical lines in the payload of the frame at the head of
the reader (0 when there is no frame or its payload is not valid UTF-8). -/
def headFrameLines : List ReplayMsg → Nat
  | [] => 0
  | msg :: _ =>
    match utf8Decode msg.payload with
    | none => 0
    | some v => (strLines v).length

/-- C8: the pending queue is bounded by the line count of the single most
recently read frame: a call that starts from an empty queue ends with
strictly fewer queued lines than that frame contains (one is removed
immediately), or with an empty queue; a call that starts from a non-empty
queue only pops its front. -/
theorem claim_C8_queue_bound (st : DogStatsDReplayReader) (s : List Char) :
    (st.current_messages = [] →
      ((read_msg st s).2.2.current_messages.length + 1
          ≤ headFrameLines st.replay_msg_reader ∨
        (read_msg st s).2.2.current_messages = [])) ∧
    (∀ l q, st.current_messages = l :: q →
      (read_msg st s).2.2.current_messages = q) := by
  obtain ⟨fr, cm⟩ := st
  constructor
  · intro hq
    simp only at hq
    subst hq
    cases fr with
    | nil => rw [read_msg_end _ _ rfl] <;> simp
    | cons msg rest =>
      cases hdec : utf8Decode msg.payload with
      | none => rw [read_msg_badUtf8 msg rest s hdec]; simp
      | some v =>
        by_cases hv : v = []
        · subst hv; rw [read_msg_empty_payload msg rest s hdec]; simp
        · rw [read_msg_fill msg rest v s hdec hv]
          obtain ⟨l, q, he⟩ := List.exists_cons_of_ne_nil (strLines_ne_nil hv)
          rw [he, read_msg_pop]
          left
          simp [headFrameLines, hdec, he]
  · intro l q hq
    simp only at hq
    subst hq
    rw [read_msg_pop]

theorem claim_C8_queue_bound_witness :
    ((read_msg ⟨[⟨[0x61, 0x0a, 0x62]⟩], []⟩ []).2.2.current_messages.length + 1
        ≤ headFrameLines [⟨[0x61, 0x0a, 0x62]⟩] ∨
      (read_msg ⟨[⟨[0x61, 0x0a, 0x62]⟩], []⟩ []).2.2.current_messages = []) ∧
    (read_msg ⟨[], [['a']]⟩ []).2.2.current_messages = [] :=
  ⟨(claim_C8_queue_bound ⟨[⟨[0x61, 0x0a, 0x62]⟩], []⟩ []).1 rfl,
   (claim_C8_queue_bound ⟨[], [['a']]⟩ []).2 ['a'] [] rfl⟩

/-- C10: `read_msg` terminates with recursion depth at most one: when the
queue is empty and the next frame decodes to non-empty text, the call equals
a single recursive call on the state with the freshly filled (non-empty)
queue, and that call takes the queue-pop branch and returns immediately.
(`read_msg` being accepted as a total function is the termination half.) -/
theorem claim_C10_recursion_depth_one (msg : ReplayMsg) (rest : List ReplayMsg)
    (v s : List Char) (hdec : utf8Decode msg.payload = some v) (hne : v ≠ []) :
    ∃ l q, strLines v = l :: q ∧
      read_msg ⟨msg :: rest, []⟩ s = read_msg ⟨rest, l :: q⟩ s ∧
      read_msg ⟨rest, l :: q⟩ s = (Except.ok 1, l ++ s, ⟨rest, q⟩) := by
  obtain ⟨l, q, he⟩ := List.exists_cons_of_ne_nil (strLines_ne_nil hne)
  exact ⟨l, q, he, by rw [read_msg_fill msg rest v s hdec hne, he],
    read_msg_pop rest l q s⟩

/-- Raw token split on `'\n'` (the semantics of `str::split('\n')`): every
newline separates two records, so a trailing newline yields a trailing empty
record. Spec-side definition, used to word the one-record-per-line claim. -/
def splitNl : List Char → List (List Char)
  | [] => [[]]
  | c :: rest =>
    if c = '\n' then [] :: splitNl rest
    else
      match splitNl rest with
      | [] => [[c]]
      | p :: ps => (c :: p) :: ps

/-- One-record-per-line splitting as the spec words it: raw token split on
`'\n'`, with the spurious empty trailing record dropped when the text ends
in a newline. Spec-side definition, compared against the source-side
`strLines`. -/
def specLines (t : List Char) : List (List Char) :=
  if t.getLast? = some '\n' then (splitNl t).dropLast else splitNl t

theorem splitNl_ne_nil (t : List Char) : splitNl t ≠ [] := by
  cases t with
  | nil => simp [splitNl]
  | cons c rest =>
    simp only [splitNl]
    split
    · simp
    · split <;> simp

/-- Strip one trailing newline, if present. -/
def dropNl (l : List Char) : List Char :=
  if l.getLast? = some '\n' then l.dropLast else l

theorem linesMap_eq_dropNl {l : List Char} (h : '\r' ∉ l) :
    linesMap l = dropNl l := by
  unfold linesMap stripSuffixChar dropNl
  by_cases hn : l.getLast? = some '\n'
  · have h2 : l.dropLast.getLast? ≠ some '\r' := by
      intro hc
      exact h (List.dropLast_subset l (List.mem_of_getLast?_eq_some hc))
    simp [hn, h2]
  · simp [hn]

theorem dropNl_cons {c : Char} (seg : List Char) (hc : c ≠ '\n') :
    dropNl (c :: seg) = c :: dropNl seg := by
  cases seg with
  | nil => simp [dropNl, hc]
  | cons d ds =>
    simp only [dropNl, List.getLast?_cons_cons, List.dropLast_cons₂]
    split <;> rfl

theorem splitNl_cons_ne {c : Char} (rest : List Char) (hc : c ≠ '\n')
    {p : List Char} {ps : List (List Char)} (hp : splitNl rest = p :: ps) :
    splitNl (c :: rest) = (c :: p) :: ps := by
  simp only [splitNl, if_neg hc, hp]

theorem splitInclusiveNl_cons_ne {c : Char} (rest : List Char) (hc : c ≠ '\n')
    {seg : List Char} {segs : List (List Char)}
    (hs : splitInclusiveNl rest = seg :: segs) :
    splitInclusiveNl (c :: rest) = (c :: seg) :: segs := by
  simp only [splitInclusiveNl, if_neg hc, hs]

theorem splitNl_eq_splitInclusive (t : List Char) :
    splitNl t = (splitInclusiveNl t).map dropNl ++
      (if t.getLast? = some '\n' ∨ t = [] then [[]] else []) := by
  induction t with
  | nil => simp [splitNl, splitInclusiveNl]
  | cons c rest ih =>
    by_cases hc : c = '\n'
    · subst hc
      cases rest with
      | nil => simp [splitNl, splitInclusiveNl, dropNl]
      | cons d ds =>
        have h1 : splitNl ('\n' :: d :: ds) = [] :: splitNl (d :: ds) := by
          simp [splitNl]
        have h2 : splitInclusiveNl ('\n' :: d :: ds)
            = ['\n'] :: splitInclusiveNl (d :: ds) := by
          simp [splitInclusiveNl]
        have h3 : dropNl ['\n'] = [] := by simp [dropNl]
        rw [h1, h2, ih, List.map_cons, h3, List.getLast?_cons_cons]
        simp
    · cases rest with
      | nil => simp [splitNl, splitInclusiveNl, dropNl, hc]
      | cons d ds =>
        obtain ⟨p, ps, hp⟩ := List.exists_cons_of_ne_nil (splitNl_ne_nil (d :: ds))
        obtain ⟨seg, segs, hs⟩ :=
          List.exists_cons_of_ne_nil (splitInclusiveNl_ne_nil (s := d :: ds) (by simp))
        rw [hp, hs] at ih
        simp only [List.map_cons, List.cons_append, List.cons.injEq,
          List.cons_ne_nil, or_false] at ih
        rw [splitNl_cons_ne (d :: ds) hc hp,
          splitInclusiveNl_cons_ne (d :: ds) hc hs,
          List.map_cons, dropNl_cons seg hc, List.getLast?_cons_cons]
        simp [ih.1, ih.2]

theorem mem_splitInclusiveNl {c : Char} :
    ∀ (t seg : List Char), seg ∈ splitInclusiveNl t → c ∈ seg → c ∈ t
  | [], seg, hseg, _ => by simp [splitInclusiveNl] at hseg
  | a :: rest, seg, hseg, hc => by
    by_cases ha : a = '\n'
    · simp only [splitInclusiveNl, if_pos ha] at hseg
      rcases List.mem_cons.mp hseg with h1 | h2
      · subst h1
        have h3 : c = '\n' := by simpa using hc
        simp [ha, h3]
      · exact List.mem_cons_of_mem _ (mem_splitInclusiveNl rest seg h2 hc)
    · simp only [splitInclusiveNl, if_neg ha] at hseg
      cases hrest : splitInclusiveNl rest with
      | nil =>
        rw [hrest] at hseg
        simp only [List.mem_singleton] at hseg
        subst hseg
        exact List.mem_cons.mpr (Or.inl (by simpa using hc))
      | cons s ss =>
        rw [hrest] at hseg
        rcases List.mem_cons.mp hseg with h1 | h2
        · subst h1
          rcases List.mem_cons.mp hc with h3 | h4
          · simp [h3]
          · exact List.mem_cons_of_mem _
              (mem_splitInclusiveNl rest s (by rw [hrest]; exact List.mem_cons_self s ss) h4)
        · exact List.mem_cons_of_mem _
            (mem_splitInclusiveNl rest seg (by rw [hrest]; exact List.mem_cons_of_mem s h2) hc)

theorem strLines_eq_specLines (t : List Char) (hcr : '\r' ∉ t) (hne : t ≠ []) :
    strLines t = specLines t := by
  have hmap : (splitInclusiveNl t).map linesMap = (splitInclusiveNl t).map dropNl := by
    apply List.map_congr_left
    intro seg hseg
    exact linesMap_eq_dropNl (fun hc => hcr (mem_splitInclusiveNl t seg hseg hc))
  have h3 := splitNl_eq_splitInclusive t
  rw [strLines, hmap, specLines]
  by_cases hl : t.getLast? = some '\n'
  · rw [if_pos (Or.inl hl)] at h3
    rw [if_pos hl, h3, List.dropLast_concat]
  · rw [if_neg (by simp [hl, hne])] at h3
    rw [if_neg hl, h3, List.append_nil]

/-- Strip one trailing carriage return, if present. -/
def stripCr (l : List Char) : List Char :=
  if l.getLast? = some '\r' then l.dropLast else l

/-- Apply `f` to every element except the last. -/
def mapExceptLast (f : List Char → List Char) : List (List Char) → List (List Char)
  | [] => []
  | r :: rs =>
    match rs with
    | [] => [r]
    | _ :: _ => f r :: mapExceptLast f rs

/-- One-record-per-line splitting with the source's carriage-return
handling: raw token split on `'\n'`, the spurious empty trailing record
dropped when the text ends in a newline, and one trailing `'\r'` removed
from every newline-terminated record — every record but the last, and also
the last when the text ends in a newline. Spec-side definition for the
amended claim, compared against the source-side `strLines`. -/
def specLinesCr (t : List Char) : List (List Char) :=
  if t.getLast? = some '\n' then ((splitNl t).dropLast).map stripCr
  else mapExceptLast stripCr (splitNl t)

theorem mapExceptLast_append_singleton (f : List Char → List Char)
    (xs : List (List Char)) (x : List Char) :
    mapExceptLast f (xs ++ [x]) = xs.map f ++ [x] := by
  induction xs with
  | nil => simp [mapExceptLast]
  | cons a as ih =>
    cases as with
    | nil => simp [mapExceptLast]
    | cons b bs =>
      have h : mapExceptLast f ((a :: b :: bs) ++ [x])
          = f a :: mapExceptLast f ((b :: bs) ++ [x]) := rfl
      rw [h, ih]
      simp

theorem linesMap_endsNl {l : List Char} (h : l.getLast? = some '\n') :
    linesMap l = stripCr l.dropLast := by
  simp only [linesMap, stripSuffixChar, stripCr, h, if_pos]
  split <;> simp_all

theorem linesMap_not_endsNl {l : List Char} (h : l.getLast? ≠ some '\n') :
    linesMap l = l := by
  simp [linesMap, stripSuffixChar, h]

theorem dropNl_endsNl {l : List Char} (h : l.getLast? = some '\n') :
    dropNl l = l.dropLast := by
  simp [dropNl, h]

theorem dropNl_not_endsNl {l : List Char} (h : l.getLast? ≠ some '\n') :
    dropNl l = l := by
  simp [dropNl, h]

theorem splitInclusiveNl_structure :
    ∀ (t : List Char), t ≠ [] →
      ∃ init lst, splitInclusiveNl t = init ++ [lst] ∧
        (∀ seg ∈ init, seg.getLast? = some '\n') ∧
        lst ≠ [] ∧ lst.getLast? = t.getLast?
  | c :: rest, _ => by
    by_cases hc : c = '\n'
    · subst hc
      cases rest with
      | nil => exact ⟨[], ['\n'], by simp [splitInclusiveNl], by simp, by simp, by simp⟩
      | cons d ds =>
        obtain ⟨init, lst, h1, h2, h3, h4⟩ :=
          splitInclusiveNl_structure (d :: ds) (by simp)
        have hcons : splitInclusiveNl ('\n' :: d :: ds)
            = ['\n'] :: splitInclusiveNl (d :: ds) := rfl
        refine ⟨['\n'] :: init, lst, by rw [hcons, h1]; simp, ?_, h3, ?_⟩
        · intro seg hseg
          rcases List.mem_cons.mp hseg with h | h
          · subst h; simp
          · exact h2 seg h
        · rw [List.getLast?_cons_cons]
          exact h4
    · cases rest with
      | nil => exact ⟨[], [c], by simp [splitInclusiveNl, hc], by simp, by simp, by simp⟩
      | cons d ds =>
        obtain ⟨init, lst, h1, h2, h3, h4⟩ :=
          splitInclusiveNl_structure (d :: ds) (by simp)
        cases init with
        | nil =>
          refine ⟨[], c :: lst, ?_, by simp, by simp, ?_⟩
          · rw [splitInclusiveNl_cons_ne (d :: ds) hc (by simpa using h1)]
            simp
          · cases lst with
            | nil => exact absurd rfl h3
            | cons x xs => simp only [List.getLast?_cons_cons]; simpa using h4
        | cons i0 irest =>
          refine ⟨(c :: i0) :: irest, lst, ?_, ?_, h3, ?_⟩
          · rw [splitInclusiveNl_cons_ne (d :: ds) hc (by simpa using h1)]
            simp
          · intro seg hseg
            rcases List.mem_cons.mp hseg with h | h
            · subst h
              have hi0 := h2 i0 (List.mem_cons_self i0 irest)
              cases i0 with
              | nil => simp at hi0
              | cons y ys => rw [List.getLast?_cons_cons]; exact hi0
            · exact h2 seg (List.mem_cons_of_mem i0 h)
          · rw [List.getLast?_cons_cons]
            exact h4

theorem strLines_eq_specLinesCr (t : List Char) (hne : t ≠ []) :
    strLines t = specLinesCr t := by
  obtain ⟨init, lst, h1, h2, h3, h4⟩ := splitInclusiveNl_structure t hne
  have hE := splitNl_eq_splitInclusive t
  rw [h1] at hE
  have hmapinit : init.map linesMap = init.map (fun seg => stripCr (dropNl seg)) := by
    apply List.map_congr_left
    intro seg hseg
    rw [linesMap_endsNl (h2 seg hseg), dropNl_endsNl (h2 seg hseg)]
  unfold specLinesCr
  by_cases hl : t.getLast? = some '\n'
  · rw [if_pos hl]
    have hlst : lst.getLast? = some '\n' := by rw [h4]; exact hl
    rw [if_pos (Or.inl hl)] at hE
    rw [hE, List.dropLast_concat, strLines, h1]
    simp only [List.map_append, List.map_map, List.map_cons, List.map_nil]
    rw [hmapinit, linesMap_endsNl hlst, dropNl_endsNl hlst]
    simp [Function.comp]
  · rw [if_neg hl]
    have hlst : lst.getLast? ≠ some '\n' := by rw [h4]; exact hl
    rw [if_neg (by simp [hl, hne])] at hE
    rw [List.append_nil] at hE
    rw [hE, List.map_append, List.map_cons, List.map_nil,
      mapExceptLast_append_singleton, strLines, h1]
    simp only [List.map_append, List.map_map, List.map_cons, List.map_nil]
    rw [hmapinit, linesMap_not_endsNl hlst, dropNl_not_endsNl hlst]
    simp [Function.comp]

/-- C6 counterexample: the payload bytes `"a\r\nb"` decode to a text whose
newline-boundary records are `["a\r", "b"]`, but the source's split yields
`["a", "b"]` — the carriage return before the line-ending newline is
trimmed, so the pushed line is not the newline-boundary record. -/
theorem claim_C6_newline_split_counterexample :
    utf8Decode [0x61, 0x0d, 0x0a, 0x62] = some ['a', '\r', '\n', 'b'] ∧
    specLines ['a', '\r', '\n', 'b'] = [['a', '\r'], ['b']] ∧
    strLines ['a', '\r', '\n', 'b'] = [['a'], ['b']] ∧
    strLines ['a', '\r', '\n', 'b'] ≠ specLines ['a', '\r', '\n', 'b'] := by
  decide

/-- C6 (amended): for every non-empty decoded payload text, the decoder
splits on newline boundaries with one-record-per-line semantics — raw token
split on `'\n'`, with the spurious empty trailing record from a trailing
newline dropped and embedded blank lines between two newlines preserved —
except that one carriage return immediately preceding each terminating
newline is trimmed from its record; all resulting lines are pushed onto the
queue in original order (the first is emitted at once, the rest are queued
in order). -/
theorem claim_C6_newline_split (t : List Char) (hne : t ≠ []) :
    strLines t = specLinesCr t ∧
    ∀ msg rest s, utf8Decode msg.payload = some t →
      ∃ l q, strLines t = l :: q ∧
        read_msg ⟨msg :: rest, []⟩ s = (Except.ok 1, l ++ s, ⟨rest, q⟩) := by
  refine ⟨strLines_eq_specLinesCr t hne, ?_⟩
  intro msg rest s hdec
  obtain ⟨l, q, he⟩ := List.exists_cons_of_ne_nil (strLines_ne_nil hne)
  exact ⟨l, q, he, by rw [read_msg_fill msg rest t s hdec hne, he, read_msg_pop]⟩

theorem claim_C6_newline_split_witness :
    strLines ['a', '\r', '\n', 'b'] = specLinesCr ['a', '\r', '\n', 'b'] ∧
    ∃ l q, strLines ['a', '\r', '\n', 'b'] = l :: q ∧
      read_msg ⟨[⟨[0x61, 0x0d, 0x0a, 0x62]⟩], []⟩ []
        = (Except.ok 1, l ++ [], ⟨[], q⟩) :=
  have h := claim_C6_newline_split ['a', '\r', '\n', 'b'] (by decide)
  ⟨h.1, h.2 ⟨[0x61, 0x0d, 0x0a, 0x62]⟩ [] [] (by decide)⟩

theorem claim_C10_recursion_depth_one_witness :
    ∃ l q, strLines ['a'] = l :: q ∧
      read_msg ⟨[⟨[0x61]⟩], []⟩ [] = read_msg ⟨[], l :: q⟩ [] ∧
      read_msg ⟨[], l :: q⟩ [] = (Except.ok 1, l ++ [], ⟨[], q⟩) :=
  claim_C10_recursion_depth_one ⟨[0x61]⟩ [] ['a'] [] (by decide) (by decide)

/-- Modelled from the spec: the 4-byte magic marker the frame reader expects
at the start of a replay file (`ReplayReader` lives outside `src/`; the
constant matches the replay buffers in the repository's tests). -/
def replayMarker : List Byte := [0xd4, 0x74, 0xd0, 0x60]

/-- Modelled from the spec: the recognized 4-byte version/reserved field
following the marker. -/
def supportedVersionBytes : List Byte := [0xf3, 0xff, 0x00, 0x00]

/-- Little-endian 32-bit unsigned length read at the head of a frame. -/
def le32 : List Byte → Nat
  | b0 :: b1 :: b2 :: b3 :: _ =>
    b0 % 0x100 + b1 % 0x100 * 0x100 + b2 % 0x100 * 0x10000 + b3 % 0x100 * 0x1000000
  | _ => 0

/-- Modelled from the spec: frame iteration of the frame reader (spec §4.1,
steps 1–5), which lives outside `src/`. Fewer than 4 remaining bytes is
end-of-stream; a zero length whose following declared bytes are all zero is
the sentinel closing frame; a declared length exceeding the remaining bytes
is a tolerated truncation; otherwise the length-prefixed region is consumed
as one frame. The payload-framing schema decode (step 5) is a black box in
the spec and is modelled as yielding the raw region as the frame payload. -/
def parseFrames (buf : List Byte) : List ReplayMsg :=
  if h4 : buf.length < 4 then []
  else
    let n := le32 buf
    let body := buf.drop 4
    if n = 0 && (body.take 4).all (· = 0) then []
    else if body.length < n then []
    else ⟨body.take n⟩ :: parseFrames (body.drop n)
termination_by buf.length
decreasing_by
  simp only [List.length_drop]
  omega

/-- Modelled from the spec: `ReplayReader::new` (spec §4.1) validates the
first 8 bytes as marker plus version, failing with `NotAReplayFile` on a
marker mismatch and with `UnsupportedReplayVersion` on an unrecognized
version; on success the cursor stands immediately after the header, i.e. the
reader will yield the frames of the remaining bytes. -/
def ReplayReader.new (buf : List Byte) : Except ReplayReaderError (List ReplayMsg) :=
  if buf.take 4 ≠ replayMarker then Except.error ReplayReaderError.NotAReplayFile
  else if (buf.drop 4).take 4 ≠ supportedVersionBytes then
    Except.error ReplayReaderError.UnsupportedReplayVersion
  else Except.ok (parseFrames (buf.drop 8))

/-- `DogStatsDReplayReader::new` (`src/dogstatsdreplayreader.rs:58-73`):
wraps `ReplayReader::new`, mapping each of its two errors to the
corresponding own variant and starting with an empty `current_messages`. -/
def DogStatsDReplayReader.new (buf : List Byte) :
    Except DogStatsDReplayReaderError DogStatsDReplayReader :=
  match ReplayReader.new buf with
  | Except.ok reader => Except.ok ⟨reader, []⟩
  | Except.error e =>
    match e with
    | ReplayReaderError.NotAReplayFile =>
      Except.error DogStatsDReplayReaderError.NotAReplayFile
    | ReplayReaderError.UnsupportedReplayVersion =>
      Except.error DogStatsDReplayReaderError.UnsupportedReplayVersion

/-- C2: construction propagates the frame reader's two construction errors
unchanged — it fails with `NotAReplayFile` or `UnsupportedReplayVersion`
exactly when the underlying reader does — and otherwise succeeds with an
empty pending-line queue. -/
theorem claim_C2_new_propagates (buf : List Byte) :
    (DogStatsDReplayReader.new buf
        = Except.error DogStatsDReplayReaderError.NotAReplayFile ↔
      ReplayReader.new buf = Except.error ReplayReaderError.NotAReplayFile) ∧
    (DogStatsDReplayReader.new buf
        = Except.error DogStatsDReplayReaderError.UnsupportedReplayVersion ↔
      ReplayReader.new buf = Except.error ReplayReaderError.UnsupportedReplayVersion) ∧
    (∀ fr, ReplayReader.new buf = Except.ok fr →
      DogStatsDReplayReader.new buf = Except.ok ⟨fr, []⟩) := by
  cases hr : ReplayReader.new buf with
  | ok reader => simp [DogStatsDReplayReader.new, hr]
  | error e => cases e <;> simp [DogStatsDReplayReader.new, hr]

theorem claim_C2_new_propagates_witness :
    DogStatsDReplayReader.new []
        = Except.error DogStatsDReplayReaderError.NotAReplayFile ∧
    DogStatsDReplayReader.new (replayMarker ++ [1, 2, 3, 4])
        = Except.error DogStatsDReplayReaderError.UnsupportedReplayVersion ∧
    DogStatsDReplayReader.new (replayMarker ++ supportedVersionBytes)
        = Except.ok ⟨[], []⟩ :=
  have hok : ReplayReader.new (replayMarker ++ supportedVersionBytes)
      = Except.ok [] := by
    have hp : parseFrames [] = [] := by rw [parseFrames]; simp
    simp [ReplayReader.new, replayMarker, supportedVersionBytes, hp]
  ⟨(claim_C2_new_propagates []).1.mpr rfl,
   (claim_C2_new_propagates (replayMarker ++ [1, 2, 3, 4])).2.1.mpr rfl,
   (claim_C2_new_propagates (replayMarker ++ supportedVersionBytes)).2.2 [] hok⟩

/-- Modelled from the spec: outcomes of the collaborator steps of the CLI
(`File::open`, `DogStatsDReplay::try_from`, `write_to`), which live outside
`src/`: each either succeeds or fails with an I/O or decode error. -/
structure CliWorld where
  openOk : Bool
  replayOk : Bool
  writeOk : Bool

/-- Observable outcome of one CLI invocation: the lines printed to stdout
and stderr, the destination path written (when the dump completed), and the
process exit code. -/
structure CliOutcome where
  stdoutLines : List (List Char)
  stderrLines : List (List Char)
  written : Option (List Char)
  exitCode : Nat

def usageMessage (prog : List Char) : List Char :=
  ("Usage: ").toList ++ prog ++ (" <file_path>").toList

def doneMessage (dest : List Char) : List Char :=
  ("Done! Result is in ").toList ++ dest

def txtSuffix : List Char := (".txt").toList

/-- `main` of `src/bin/replaydump.rs:7-24`: `args` is `env::args()` with the
program name first. A failing step makes `main` return `Err`, which the
runtime reports with a non-zero exit code (the error text printed in that
case is not modelled). -/
def replaydump_main (args : List (List Char)) (w : CliWorld) : CliOutcome :=
  if args.length ≠ 2 then
    { stdoutLines := [], stderrLines := [usageMessage (args.headD [])],
      written := none, exitCode := 1 }
  else
    let file_path := args.getD 1 []
    if w.openOk = false then
      { stdoutLines := [], stderrLines := [], written := none, exitCode := 1 }
    else if w.replayOk = false then
      { stdoutLines := [], stderrLines := [], written := none, exitCode := 1 }
    else
      let dest := file_path ++ txtSuffix
      if w.writeOk = false then
        { stdoutLines := [], stderrLines := [], written := none, exitCode := 1 }
      else
        { stdoutLines := [doneMessage dest], stderrLines := [],
          written := some dest, exitCode := 0 }

/-- C9: when the number of path arguments differs from exactly one (`args`
includes the program name, so `args.length ≠ 2`), the CLI prints a usage
message to stderr and exits non-zero; with exactly one path argument and
successful collaborator steps it writes the output at `<input>.txt` and
prints the completion message. -/
theorem claim_C9_cli_contract (args : List (List Char)) (w : CliWorld) :
    (args.length ≠ 2 →
      (replaydump_main args w).stderrLines = [usageMessage (args.headD [])] ∧
      (replaydump_main args w).exitCode ≠ 0) ∧
    (∀ prog path, args = [prog, path] → w.openOk = true → w.replayOk = true →
      w.writeOk = true →
      (replaydump_main args w).written = some (path ++ txtSuffix) ∧
      (replaydump_main args w).stdoutLines = [doneMessage (path ++ txtSuffix)] ∧
      (replaydump_main args w).exitCode = 0) := by
  constructor
  · intro h
    simp [replaydump_main, h]
  · intro prog path ha ho hr hw
    subst ha
    simp [replaydump_main, ho, hr, hw]

theorem claim_C9_cli_contract_witness :
    ((replaydump_main [['p']] ⟨true, true, true⟩).stderrLines
        = [usageMessage ([['p']].headD [])] ∧
      (replaydump_main [['p']] ⟨true, true, true⟩).exitCode ≠ 0) ∧
    ((replaydump_main [['p'], ['f']] ⟨true, true, true⟩).written
        = some (['f'] ++ txtSuffix) ∧
      (replaydump_main [['p'], ['f']] ⟨true, true, true⟩).stdoutLines
        = [doneMessage (['f'] ++ txtSuffix)] ∧
      (replaydump_main [['p'], ['f']] ⟨true, true, true⟩).exitCode = 0) :=
  ⟨(claim_C9_cli_contract [['p']] ⟨true, true, true⟩).1 (by decide),
   (claim_C9_cli_contract [['p'], ['f']] ⟨true, true, true⟩).2 ['p'] ['f']
     rfl rfl rfl rfl⟩

end DogStatsD
